import Mathlib

/-!
Verification of the sequence-utility core of the `total-serialism-modernize`
library (`src/utility.ts`: the utility half and the transform half).

The JavaScript/TypeScript values flowing through this code are numbers,
strings, `undefined` and (nested) arrays.  We embed them as the inductive
type `Node` below, with numbers modelled as exact rationals plus the IEEE
special values `NaN`, `Infinity` and `-Infinity`.  Floating-point rounding
and the shortest-round-trip float formatting are outside the model; every
concrete input used by the theorems is small-integer valued, where the
rational model agrees exactly with IEEE doubles.
-/

namespace TS

/-- A JavaScript value as used by the library: a number (exact rational),
one of the special numbers `NaN` / `Infinity` / `-Infinity`, `undefined`,
a string, or a (possibly nested) array. -/
inductive Node where
  | num (q : ℚ)
  | str (s : String)
  | nan
  | inf
  | ninf
  | undefined
  | arr (l : List Node)

/-- `Array.isArray`. -/
def isArr : Node → Bool
  | .arr _ => true
  | _ => false

/-- `toArray` (utility.ts line 22): wrap a non-array in a singleton array. -/
def toArray : Node → List Node
  | .arr l => l
  | x => [x]

/-- `fromArray(a, i)` (utility.ts line 33) as called by `arrayCalc`, where
the first argument is always an array: plain indexing, `undefined` when out
of range. -/
def fromArray (l : List Node) (i : Nat) : Node :=
  l.getD i .undefined

/-- `length` (utility.ts line 45): array length, and `1` for any non-array
input (the code returns `1` for numbers as well, despite its doc comment). -/
def length : Node → Nat
  | .arr l => l.length
  | _ => 1

/-- JS `ToNumber` restricted to the scalar values the claims exercise:
`undefined` coerces to `NaN`.  JS would parse numeric strings and apply
`ToPrimitive` to arrays; none of the verified code paths reach those cases,
so both are sent to `NaN` (matching the spec's "non-numeric scalars
propagate NaN"). -/
def toNum : Node → Node
  | .num q => .num q
  | .nan => .nan
  | .inf => .inf
  | .ninf => .ninf
  | .undefined => .nan
  | .str _ => .nan
  | .arr _ => .nan

/-- Is the value a string or an array (forcing JS `+` into string
concatenation after `ToPrimitive`)? -/
def isStringish : Node → Bool
  | .str _ => true
  | .arr _ => true
  | _ => false

/-- `Array.prototype.join(',')` on already-stringified elements. -/
def jsJoin : List String → String
  | [] => ""
  | [x] => x
  | x :: xs => x ++ "," ++ jsJoin xs

mutual

/-- JS `ToString`.  Integral numbers print exactly as in JS; the
non-integral branch stands in for JS float formatting (never reached by the
concrete inputs of the theorems, which are all integral).  An array prints
as its elements joined by commas. -/
def toStr : Node → String
  | .num q => if q.den = 1 then toString q.num else toString q
  | .str s => s
  | .nan => "NaN"
  | .inf => "Infinity"
  | .ninf => "-Infinity"
  | .undefined => "undefined"
  | .arr l => jsJoin (toStrList l)

def toStrList : List Node → List String
  | [] => []
  | x :: xs => toStr x :: toStrList xs

end

/-- JS `+`: string concatenation when either operand is a string or an
array, numeric addition (with IEEE special-value rules) otherwise. -/
def jsAdd (a b : Node) : Node :=
  if isStringish a || isStringish b then .str (toStr a ++ toStr b)
  else match toNum a, toNum b with
    | .num x, .num y => .num (x + y)
    | .nan, _ => .nan
    | _, .nan => .nan
    | .inf, .ninf => .nan
    | .ninf, .inf => .nan
    | .inf, _ => .inf
    | _, .inf => .inf
    | .ninf, _ => .ninf
    | _, .ninf => .ninf
    | _, _ => .nan

/-- JS `-` (numeric subtraction with IEEE special-value rules). -/
def jsSub (a b : Node) : Node :=
  match toNum a, toNum b with
  | .num x, .num y => .num (x - y)
  | .nan, _ => .nan
  | _, .nan => .nan
  | .inf, .inf => .nan
  | .ninf, .ninf => .nan
  | .inf, _ => .inf
  | .ninf, _ => .ninf
  | _, .inf => .ninf
  | _, .ninf => .inf
  | _, _ => .nan

/-- JS `*` (numeric multiplication with IEEE special-value rules;
signed zero is not modelled). -/
def jsMul (a b : Node) : Node :=
  match toNum a, toNum b with
  | .num x, .num y => .num (x * y)
  | .nan, _ => .nan
  | _, .nan => .nan
  | .inf, .inf => .inf
  | .inf, .ninf => .ninf
  | .ninf, .inf => .ninf
  | .ninf, .ninf => .inf
  | .inf, .num y => if y = 0 then .nan else if 0 < y then .inf else .ninf
  | .num x, .inf => if x = 0 then .nan else if 0 < x then .inf else .ninf
  | .ninf, .num y => if y = 0 then .nan else if 0 < y then .ninf else .inf
  | .num x, .ninf => if x = 0 then .nan else if 0 < x then .ninf else .inf
  | _, _ => .nan

/-- JS `/` (numeric division; division by zero gives `±Infinity`, `0/0`
gives `NaN`; signed zero is not modelled). -/
def jsDiv (a b : Node) : Node :=
  match toNum a, toNum b with
  | .num x, .num y =>
      if y = 0 then (if x = 0 then .nan else if 0 < x then .inf else .ninf)
      else .num (x / y)
  | .nan, _ => .nan
  | _, .nan => .nan
  | .num _, .inf => .num 0
  | .num _, .ninf => .num 0
  | .inf, .num y => if 0 ≤ y then .inf else .ninf
  | .ninf, .num y => if 0 ≤ y then .ninf else .inf
  | _, _ => .nan

/-- `Math.max` of two values (`NaN` absorbing). -/
def jsMax (a b : Node) : Node :=
  match toNum a, toNum b with
  | .num x, .num y => .num (max x y)
  | .nan, _ => .nan
  | _, .nan => .nan
  | .inf, _ => .inf
  | _, .inf => .inf
  | .ninf, y => y
  | x, .ninf => x
  | _, _ => .nan

/-- `Math.min` of two values (`NaN` absorbing). -/
def jsMin (a b : Node) : Node :=
  match toNum a, toNum b with
  | .num x, .num y => .num (min x y)
  | .nan, _ => .nan
  | _, .nan => .nan
  | .ninf, _ => .ninf
  | _, .ninf => .ninf
  | .inf, y => y
  | x, .inf => x
  | _, _ => .nan

mutual

/-- `arrayCalc` (utility.ts lines 180-205), the broadcasting engine.
When `b` is an array the code builds
`Array.from({length: max(...)}, (_, i) => operation(fromArray(left, i % left.length), fromArray(right, i % right.length)))`,
applying `operation` DIRECTLY to the paired elements (no recursive call).
When `b` is a scalar and `a` an array it maps `arrayCalc(x, b, operation)`
over `a` recursively; when both are scalars it applies `operation`. -/
def arrayCalc (a b : Node) (op : Node → Node → Node) : Node :=
  match b with
  | .arr right =>
      let left := toArray a
      .arr ((List.range (max left.length right.length)).map (fun i =>
        op (fromArray left (i % left.length)) (fromArray right (i % right.length))))
  | _ =>
      match a with
      | .arr left => .arr (arrayCalcList left b op)
      | _ => op a b

/-- The `left.map(x => arrayCalc(x, right, operation))` part of `arrayCalc`. -/
def arrayCalcList (l : List Node) (b : Node) (op : Node → Node → Node) : List Node :=
  match l with
  | [] => []
  | x :: xs => arrayCalc x b op :: arrayCalcList xs b op

end

/-- `add` (utility.ts line 214): `arrayCalc(a, b, (a, b) => a + b)`. -/
def add (a b : Node) : Node :=
  arrayCalc a b jsAdd

/-- `subtract` (utility.ts line 225): `arrayCalc(a, b, (a, b) => a - b)`. -/
def subtract (a b : Node) : Node :=
  arrayCalc a b jsSub

/-- `multiply` (utility.ts line 236): `arrayCalc(a, b, (a, b) => a * b)`. -/
def multiply (a b : Node) : Node :=
  arrayCalc a b jsMul

/-- `divide` (utility.ts line 247): `arrayCalc(a, b, (a, b) => a / b)`. -/
def divide (a b : Node) : Node :=
  arrayCalc a b jsDiv

/-- `toArray(a).flat(Infinity)` over the element list, as used by
`flatten`/`maximum`/`minimum`: full flattening, keeping non-array elements
in order. -/
def flatList : List Node → List Node
  | [] => []
  | .arr l :: xs => flatList l ++ flatList xs
  | x :: xs => x :: flatList xs

/-- `maximum` (utility.ts line 323): a non-array is returned unchanged,
otherwise `Math.max(...flatten(a))`, i.e. the `NaN`-absorbing maximum of
the flattened elements starting from `Math.max()`'s identity `-Infinity`. -/
def maximum : Node → Node
  | .arr l => (flatList l).foldl jsMax .ninf
  | x => x

/-- `minimum` (utility.ts line 333): a non-array is returned unchanged,
otherwise `Math.min(...flatten(a))`. -/
def minimum : Node → Node
  | .arr l => (flatList l).foldl jsMin .inf
  | x => x

/-- `normalize` (utility.ts lines 344-350).  The `range ? range : 0`
truthiness test substitutes the literal `0` when the range is the falsy
number `0` (or `NaN`). -/
def normalize (a : Node) : Node :=
  let aN : Node := match a with
    | .arr l => .arr l
    | x => .arr (toArray x)
  let min := minimum aN
  let range := jsSub (maximum aN) min
  let normalizedRange : Node := match range with
    | .num q => if q = 0 then .num 0 else .num q
    | .nan => .num 0
    | r => r
  divide (subtract aN min) normalizedRange

/-- Truncation toward zero of a rational (JS `Math.trunc` and the implicit
integer conversion of the `%` remainder). -/
def rtrunc (q : ℚ) : ℤ :=
  if 0 ≤ q then ⌊q⌋ else ⌈q⌉

/-- JS `%` on finite numbers with nonzero divisor:
`x - y * trunc(x / y)` (remainder with the sign of the dividend).  The
callers below only use it with a nonzero divisor (`wrap` is verified under
`lo ≠ hi`); `y = 0` would be `NaN` in JS. -/
def jsRem (x y : ℚ) : ℚ :=
  x - y * (rtrunc (x / y) : ℚ)

/-- `_wrap` (utility.ts lines 78-81):
`((((value - lo) % range) + range) % range) + lo` with `range = hi - lo`. -/
def wrapAux (value lo hi : ℚ) : ℚ :=
  jsRem (jsRem (value - lo) (hi - lo) + (hi - lo)) (hi - lo) + lo

/-- `wrap` (utility.ts lines 60-68) on a scalar number: swap `lo`/`hi` when
`lo > hi`, then `_wrap` (array input simply maps `_wrap` elementwise). -/
def wrap (input lo hi : ℚ) : ℚ :=
  if lo > hi then wrapAux input hi lo else wrapAux input lo hi

/-- `Math.trunc` as a JS value operation. -/
def jsTrunc : Node → Node
  | .num q => .num (rtrunc q : ℤ)
  | .nan => .nan
  | .inf => .inf
  | .ninf => .ninf
  | _ => .nan

/-- JS `%` as a JS value operation (`x % Infinity = x` for finite `x`,
`NaN` when the dividend is infinite or the divisor is `0`). -/
def jsModOp (a b : Node) : Node :=
  match toNum a, toNum b with
  | .num x, .num y => if y = 0 then .nan else .num (jsRem x y)
  | .nan, _ => .nan
  | _, .nan => .nan
  | .num x, .inf => .num x
  | .num x, .ninf => .num x
  | _, _ => .nan

/-- JS array subscript `a[v]` with an arbitrary numeric subscript:
a non-negative integral index reads the element (`undefined` out of
range); fractional, negative, `NaN` or non-numeric subscripts read a
non-existent property, i.e. `undefined`. -/
def jsIndex (l : List Node) (v : Node) : Node :=
  match v with
  | .num q => if q.den = 1 ∧ 0 ≤ q.num then l.getD q.num.toNat .undefined else .undefined
  | _ => .undefined

/-- `lerp` (utility.ts lines 163-165):
`arrayCalc(a, b, (a, b) => a * (1 - f) + b * f)`.  Note `lerp` accepts
exactly three parameters. -/
def lerp (a b : Node) (f : Node) : Node :=
  arrayCalc a b (fun x y => jsAdd (jsMul x (jsSub (.num 1) f)) (jsMul y f))

/-- The interpolation-mode type of `stretch`.  Modelled from the spec:
the `InterpolationMode` type itself is imported by transform.ts from a part
of utility.ts that is not in the sources; the spec lists the four modes
nearest/none, linear, cosine and cubic. -/
inductive InterpolationMode where
  | none
  | linear
  | cosine
  | cubic

/-- `stretch` (transform part, lines 935-950).  After the `len < 2` guard
the code reassigns `len = length(len)`, and `length` of a number is `1`;
each loop step computes `val = i / (len - 1) * (l - 1)`, reads the two
neighbouring elements and pushes `lerp(a0, a1, val % 1, mode)` — but
`lerp` takes only three parameters, so the `mode` argument is dropped at
the call. -/
def stretch (a : Node) (len : ℤ) (_mode : InterpolationMode) : Node :=
  let aL := toArray a
  if len < 2 then .arr aL
  else
    let len2 : Nat := length (.num (len : ℚ))
    let l : Nat := aL.length
    .arr ((List.range len2).map (fun (i : ℕ) =>
      let val := jsMul (jsDiv (.num (i : ℚ)) (.num ((len2 : ℚ) - 1))) (.num ((l : ℚ) - 1))
      let a0 := jsIndex aL (jsMax (jsTrunc val) (.num 0))
      let a1 := jsIndex aL
        (jsModOp (jsMin (jsAdd (jsTrunc val) (.num 1)) (.num ((l : ℚ) - 1))) (.num (l : ℚ)))
      lerp a0 a1 (jsModOp val (.num 1))))

/-- `duplicate` (transform part, lines 525-527):
`Array(Math.max(1, duplicates)).flatMap(value => Array.from(arr))`.
JS `Array(n)` is a sparse array of `n` uninitialized holes, and `flatMap`
invokes its callback only on initialized slots; the sparse array is
modelled as `n` `Option.none` slots over which the callback results of the
`some` slots are concatenated. -/
def duplicate (arr : List Node) (duplicates : ℤ) : List Node :=
  (List.replicate (max 1 duplicates).toNat (Option.none : Option Node)).foldr
    (fun slot acc => (match slot with
      | some _ => arr
      | none => ([] : List Node)) ++ acc) []

/-- `palindrome` (transform part, lines 760-769): `[0]` for `undefined`,
a singleton for a non-array, otherwise the input concatenated with its
reverse, the reverse stripped of its first and last element when
`noDouble` (`rev.slice(1, rev.length - 1)`). -/
def palindrome (arr : Node) (noDouble : Bool) : Node :=
  match arr with
  | .undefined => .arr [.num 0]
  | .arr l =>
      let rev := l.reverse
      let rev := if noDouble then (rev.drop 1).take (rev.length - 2) else rev
      .arr (l ++ rev)
  | x => .arr [x]

/-- `reverse` (transform part, lines 802-805): a non-array is wrapped in a
singleton, otherwise a reversed copy (`undefined` falls back to the
default `[0]`). -/
def reverse (a : Node) : Node :=
  match a with
  | .undefined => .arr [.num 0]
  | .arr l => .arr l.reverse
  | x => .arr [x]

/-- Is the value a bare Scalar in the sense of the spec's data model
(a number — including the special numbers — or a string, not an array and
not `undefined`)? -/
def isScalar : Node → Bool
  | .arr _ => false
  | .undefined => false
  | _ => true

/-- `rotate` (transform part, lines 815-824) on an array:
`arr[i] = a[((i - r) % l + l) % l]` for `0 ≤ i < l` (the non-array guard
returning `[a]` is not representable for an already-typed list input). -/
def rotate {α : Type} [Inhabited α] (a : List α) (r : ℤ) : List α :=
  (List.range a.length).map (fun (i : ℕ) =>
    a.getD ((((i : ℤ) - r) % (a.length : ℤ) + (a.length : ℤ)) % (a.length : ℤ)).toNat default)

/-- The chunk-cutting loop of `slice` (transform part, lines 839-847):
walk the size list once, and for each strictly positive size cut the next
chunk `a.slice(_s, _s + s[i])`; returns the chunks and the final cut
position `_s`. -/
def sliceLoop {α : Type} (a : List α) : List ℤ → Nat → List (List α) × Nat
  | [], start => ([], start)
  | x :: rest, start =>
      if 0 < x then
        let next := sliceLoop a rest (start + x.toNat)
        ((a.drop start).take x.toNat :: next.1, next.2)
      else sliceLoop a rest start

/-- `slice` (transform part, lines 835-854): cut chunks per the size list
(walked once, non-positive sizes skipped), then, when `r` is set, push the
leftover tail `a.slice(_s, a.length)` if it is non-empty. -/
def slice {α : Type} (a : List α) (s : List ℤ) (r : Bool) : List (List α) :=
  let loop := sliceLoop a s 0
  if r then
    let rest := a.drop loop.2
    if 0 < rest.length then loop.1 ++ [rest] else loop.1
  else loop.1

/-- `split`/`_split` (transform part, lines 865-882), with an explicit
`fuel` parameter standing for the JS call stack (the JS function recurses
without a termination guard; the termination theorem below exhibits a fuel
bound under which the recursion completes).  One step: if `s[0] > 0`, cut
`arr = a.slice(0, s[0])` and `res = a.slice(s[0])`, finishing with `[arr]`
when `res` is empty and otherwise prepending `arr` to
`split(res, rotate(s, -1))`; if `s[0] > 0` fails (including empty `s`),
recurse on `split(a, rotate(s, -1))` without emitting a chunk. -/
def split {α : Type} (fuel : Nat) (a : List α) (s : List ℤ) : Option (List (List α)) :=
  match fuel with
  | 0 => none
  | fuel + 1 =>
      match s with
      | h :: _ =>
          if 0 < h then
            let arr := a.take h.toNat
            let res := a.drop h.toNat
            if res.length < 1 then some [arr]
            else (split fuel res (rotate s (-1))).map (fun r => arr :: r)
          else split fuel a (rotate s (-1))
      | [] => split fuel a (rotate s (-1))

/-! ## Generic helper lemmas -/

theorem jsAdd_num (x y : ℚ) : jsAdd (.num x) (.num y) = .num (x + y) := by
  simp [jsAdd, isStringish, toNum]

theorem jsSub_num (x y : ℚ) : jsSub (.num x) (.num y) = .num (x - y) := by
  simp [jsSub, toNum]

theorem duplicate_empty (arr : List Node) (n : ℤ) : duplicate arr n = [] := by
  unfold duplicate
  generalize (max 1 n).toNat = k
  induction k with
  | zero => rfl
  | succ k ih => simpa [List.replicate_succ] using ih

/-! ## C1: nested broadcasting -/

/-- C1.  The claim states that the broadcasting engine pairs a nested Node
on the right recursively, so that `add([1,[2,3]], [10,[20,30,40]])` equals
`[11,[22,33,42]]`.  The code applies the raw JS `+` to the paired nested
arrays, which string-concatenates them: the result is
`[11, "2,320,30,40"]`, contradicting the function's own doc example
(utility.ts lines 176-177) and the library documentation — a code bug. -/
theorem claim1_nested_broadcast_code_bug :
    add (.arr [.num 1, .arr [.num 2, .num 3]]) (.arr [.num 10, .arr [.num 20, .num 30, .num 40]])
        = .arr [.num 11, .str "2,320,30,40"]
    ∧ add (.arr [.num 1, .arr [.num 2, .num 3]]) (.arr [.num 10, .arr [.num 20, .num 30, .num 40]])
        ≠ .arr [.num 11, .arr [.num 22, .num 33, .num 42]] := by
  have h : add (.arr [.num 1, .arr [.num 2, .num 3]])
      (.arr [.num 10, .arr [.num 20, .num 30, .num 40]])
      = .arr [.num 11, .str "2,320,30,40"] := by
    simp [add, arrayCalc, toArray, fromArray, List.range_succ, jsAdd, isStringish, toNum,
      toStr, toStrList, jsJoin]
    norm_num
    decide
  refine ⟨h, ?_⟩
  rw [h]
  simp

/-! ## C2: duplicate -/

/-- C2.  The claim (and the function's own doc example, lines 512-524)
states that `duplicate(a, n)` returns `n` concatenated copies of `a`.  The
code builds `Array(Math.max(1, duplicates)).flatMap(...)`: `Array(n)` is a
sparse array of holes and `flatMap` skips holes, so the function returns
`[]` for every input — a code bug.  In particular `duplicate([0,7,12], 3)`
is `[]`, not the documented nine-element list. -/
theorem claim2_duplicate_code_bug :
    (∀ (arr : List Node) (n : ℤ), duplicate arr n = [])
    ∧ duplicate [.num 0, .num 7, .num 12] 3
        ≠ [.num 0, .num 7, .num 12, .num 0, .num 7, .num 12, .num 0, .num 7, .num 12] := by
  refine ⟨duplicate_empty, ?_⟩
  rw [duplicate_empty]
  simp

/-! ## C4: scalar input to structural transformers -/

/-- C4 counterexample.  The claim states that a bare Scalar `x` behaves
as the singleton `[x]`, so `palindrome(x)` would equal
`palindrome([x]) = [x, x]`.  At `x = 5` the code returns `[5]` for the
scalar (the `!Array.isArray` early return wraps the input WITHOUT
transforming it) while `palindrome([5]) = [5, 5]`. -/
theorem claim4_palindrome_scalar_cex :
    palindrome (.num 5) false = .arr [.num 5]
    ∧ palindrome (.arr [.num 5]) false = .arr [.num 5, .num 5]
    ∧ palindrome (.num 5) false ≠ palindrome (.arr [.num 5]) false := by
  refine ⟨rfl, rfl, ?_⟩
  simp [palindrome]

/-- C4 amended.  A bare Scalar input to `palindrome` or `reverse` is
returned wrapped in a singleton Node `[x]` without the transformation
being applied (so `palindrome(x)` is `[x]`, not `[x, x]`). -/
theorem claim4_scalar_singleton_amended (v : Node) (noDouble : Bool) (h : isScalar v = true) :
    palindrome v noDouble = .arr [v] ∧ reverse v = .arr [v] := by
  cases v <;> simp_all [isScalar, palindrome, reverse]

/-- C4 amended, witness at `v = 5`, `noDouble = false`. -/
theorem claim4_scalar_singleton_witness :
    palindrome (.num 5) false = .arr [.num 5] ∧ reverse (.num 5) = .arr [.num 5] :=
  claim4_scalar_singleton_amended (.num 5) false rfl

/-! ## C10: stretch ignores the interpolation mode -/

/-- C10.  `stretch(a, len, mode)` returns the identical result for every
interpolation mode: the call `lerp(a0, a1, val % 1, mode)` passes `mode`
as a fourth argument to the three-parameter `lerp`, where JS drops it, so
the mode never influences the computation. -/
theorem claim10_stretch_mode_irrelevant (a : Node) (len : ℤ)
    (m₁ m₂ : InterpolationMode) (_h : 2 ≤ len) :
    stretch a len m₁ = stretch a len m₂ := rfl

/-- C10 witness at `a = [0, 10]`, `len = 5`, modes `linear`/`cosine`. -/
theorem claim10_stretch_mode_irrelevant_witness :
    stretch (.arr [.num 0, .num 10]) 5 .linear = stretch (.arr [.num 0, .num 10]) 5 .cosine :=
  claim10_stretch_mode_irrelevant (.arr [.num 0, .num 10]) 5 .linear .cosine (by decide)

/-! ## C3: slice -/

theorem sliceLoop_flatten {α : Type} (a : List α) :
    ∀ (s : List ℤ) (st : Nat),
      (sliceLoop a s st).1.flatten ++ a.drop (sliceLoop a s st).2 = a.drop st := by
  intro s
  induction s with
  | nil => intro st; simp [sliceLoop]
  | cons x rest ih =>
    intro st
    by_cases hx : 0 < x
    · have h := ih (st + x.toNat)
      simp only [sliceLoop, if_pos hx, List.flatten_cons, List.append_assoc, h]
      rw [← List.drop_drop]
      exact List.take_append_drop _ _
    · simpa only [sliceLoop, if_neg hx] using ih st

theorem sliceLoop_lengths {α : Type} (a : List α) :
    ∀ (s : List ℤ) (st : Nat), (∀ x ∈ s, 0 < x) →
      st + (s.map Int.toNat).sum ≤ a.length →
      (sliceLoop a s st).1.map List.length = s.map Int.toNat
      ∧ (sliceLoop a s st).2 = st + (s.map Int.toNat).sum := by
  intro s
  induction s with
  | nil => intro st _ _; simp [sliceLoop]
  | cons x rest ih =>
    intro st hpos hsum
    have hx : 0 < x := hpos x (by simp)
    have hsum' : st + x.toNat + ((rest.map Int.toNat).sum) ≤ a.length := by
      simp only [List.map_cons, List.sum_cons] at hsum
      omega
    have h := ih (st + x.toNat) (fun y hy => hpos y (by simp [hy])) hsum'
    simp only [sliceLoop, if_pos hx, List.map_cons, List.sum_cons]
    constructor
    · rw [h.1]
      congr 1
      rw [List.length_take, List.length_drop]
      omega
    · rw [h.2]
      omega

/-- C3 counterexample.  The claim states that `slice` cycles through the
sizes list when input elements remain; then `slice([1,2,3,4,5,6], [2],
keepRest)` would be `[[1,2],[3,4],[5,6]]`.  The code walks the sizes list
exactly once, so the result is `[[1,2],[3,4,5,6]]` (the four leftover
elements become one rest chunk). -/
theorem claim3_slice_not_cycled_cex :
    slice ([1, 2, 3, 4, 5, 6] : List ℤ) [2] true = [[1, 2], [3, 4, 5, 6]]
    ∧ slice ([1, 2, 3, 4, 5, 6] : List ℤ) [2] true ≠ [[1, 2], [3, 4], [5, 6]] := by
  exact ⟨by decide, by decide⟩

/-- C3 amended.  `slice(a, sizes, keepRest)` cuts `a` into consecutive
chunks whose lengths are the strictly positive entries of `sizes`, each
entry used at most once (the sizes are NOT cycled); when `keepRest` is
true any leftover tail becomes one final chunk, so the chunks concatenate
back to the input.  Formally: with `keepRest` the chunks flatten to `a`,
and when all sizes are positive and their sum fits in `a` the emitted
chunk lengths are exactly the sizes, walked once. -/
theorem claim3_slice_amended (α : Type) (a : List α) (s : List ℤ) :
    (slice a s true).flatten = a
    ∧ ((∀ x ∈ s, 0 < x) → (s.map Int.toNat).sum ≤ a.length →
        (slice a s false).map List.length = s.map Int.toNat) := by
  constructor
  · have h := sliceLoop_flatten a s 0
    by_cases hr : 0 < (a.drop (sliceLoop a s 0).2).length
    · simp only [slice, if_pos hr, List.flatten_append, List.flatten_cons, List.flatten_nil,
        List.append_nil]
      simpa using h
    · have hrest : a.drop (sliceLoop a s 0).2 = [] := by
        cases hd : a.drop (sliceLoop a s 0).2 with
        | nil => rfl
        | cons y ys => rw [hd] at hr; simp at hr
      simp only [slice, hr, if_false]
      rw [hrest, List.append_nil] at h
      simpa using h
  · intro hpos hsum
    have h := sliceLoop_lengths a s 0 hpos (by omega)
    simpa [slice] using h.1

/-- C3 amended, witness: `slice([1,2,3,4,5,6,7], [2,3], keepRest)` flattens
back to the input, and with sizes `[2,3]` fitting in `[1,2,3,4,5]` the
chunk lengths are exactly `[2,3]`. -/
theorem claim3_slice_amended_witness :
    (slice ([1, 2, 3, 4, 5, 6, 7] : List ℤ) [2, 3] true).flatten = [1, 2, 3, 4, 5, 6, 7]
    ∧ (slice ([1, 2, 3, 4, 5] : List ℤ) [2, 3] false).map List.length = [2, 3] :=
  ⟨(claim3_slice_amended ℤ [1, 2, 3, 4, 5, 6, 7] [2, 3]).1,
   (claim3_slice_amended ℤ [1, 2, 3, 4, 5] [2, 3]).2 (by decide) (by decide)⟩

/-! ## C5: flat broadcasting wraps the shorter operand -/

/-- C5.  For non-empty flat numeric arrays the broadcast combination has
the length of the longer operand, and element `i` pairs
`a[i % a.length]` with `b[i % b.length]` (the shorter operand's elements
are reused cyclically). -/
theorem claim5_broadcast_wrap (a b : List ℚ) (ha : a ≠ []) (hb : b ≠ []) :
    add (.arr (a.map .num)) (.arr (b.map .num))
      = .arr ((List.range (max a.length b.length)).map (fun i =>
          .num (a.getD (i % a.length) 0 + b.getD (i % b.length) 0))) := by
  have hla : 0 < a.length := List.length_pos.mpr ha
  have hlb : 0 < b.length := List.length_pos.mpr hb
  simp only [add, arrayCalc, toArray, List.length_map]
  congr 1
  apply List.map_congr_left
  intro i _
  have hia : i % a.length < a.length := Nat.mod_lt _ hla
  have hib : i % b.length < b.length := Nat.mod_lt _ hlb
  have hfa : fromArray (a.map .num) (i % a.length) = .num (a.getD (i % a.length) 0) := by
    simp [fromArray, List.getD_eq_getElem?_getD, List.getElem?_eq_getElem,
      (by simpa using hia : i % a.length < (a.map Node.num).length),
      List.getElem?_eq_getElem hia]
  have hfb : fromArray (b.map .num) (i % b.length) = .num (b.getD (i % b.length) 0) := by
    simp [fromArray, List.getD_eq_getElem?_getD, List.getElem?_eq_getElem,
      (by simpa using hib : i % b.length < (b.map Node.num).length),
      List.getElem?_eq_getElem hib]
  rw [hfa, hfb, jsAdd_num]

/-- C5 witness: `add([1,2,3,4], [1,2,3]) = [2,4,6,5]`. -/
theorem claim5_broadcast_wrap_witness :
    add (.arr [.num 1, .num 2, .num 3, .num 4]) (.arr [.num 1, .num 2, .num 3])
      = .arr [.num 2, .num 4, .num 6, .num 5] := by
  have h := claim5_broadcast_wrap [1, 2, 3, 4] [1, 2, 3] (by simp) (by simp)
  simp only [List.map_cons, List.map_nil] at h
  rw [h]
  norm_num [List.range_succ]

/-! ## C7: wrap -/

theorem rtrunc_bounds (q : ℚ) : q - 1 < (rtrunc q : ℚ) ∧ (rtrunc q : ℚ) < q + 1 := by
  unfold rtrunc
  by_cases h : 0 ≤ q
  · rw [if_pos h]
    exact ⟨Int.sub_one_lt_floor q, lt_of_le_of_lt (Int.floor_le q) (by linarith)⟩
  · rw [if_neg h]
    exact ⟨by linarith [Int.le_ceil q], Int.ceil_lt_add_one q⟩

theorem rtrunc_of_nonneg (q : ℚ) (h : 0 ≤ q) : rtrunc q = ⌊q⌋ := by
  unfold rtrunc
  rw [if_pos h]

theorem jsRem_spec (v r : ℚ) (hr : r ≠ 0) :
    jsRem v r = r * (v / r - (rtrunc (v / r) : ℚ)) := by
  unfold jsRem
  field_simp

theorem jsRem_double (v r : ℚ) (hr : 0 < r) :
    jsRem (jsRem v r + r) r = r * Int.fract (v / r) := by
  have hr0 : r ≠ 0 := ne_of_gt hr
  obtain ⟨hb1, hb2⟩ := rtrunc_bounds (v / r)
  have h1 : jsRem v r = r * (v / r - (rtrunc (v / r) : ℚ)) := jsRem_spec v r hr0
  have hu : jsRem v r + r = r * (v / r - (rtrunc (v / r) : ℚ) + 1) := by rw [h1]; ring
  have harg : (jsRem v r + r) / r = v / r - (rtrunc (v / r) : ℚ) + 1 := by
    rw [hu]; field_simp
  have hpos : (0 : ℚ) ≤ v / r - (rtrunc (v / r) : ℚ) + 1 := by linarith
  rw [jsRem_spec _ r hr0, harg]
  rw [rtrunc_of_nonneg _ hpos]
  have hshift : v / r - (rtrunc (v / r) : ℚ) + 1 = v / r + ((1 - rtrunc (v / r) : ℤ) : ℚ) := by
    push_cast
    ring
  rw [hshift, Int.floor_add_int, Int.fract]
  push_cast
  ring

theorem wrapAux_eq (v lo hi : ℚ) (h : lo < hi) :
    wrapAux v lo hi = lo + (hi - lo) * Int.fract ((v - lo) / (hi - lo)) := by
  unfold wrapAux
  rw [jsRem_double _ _ (by linarith)]
  ring

/-- C7.  With distinct bounds (swapped first when `lo > hi`),
`wrap(x, lo, hi)` lies in the half-open interval `[min lo hi, max lo hi)`,
and `wrap` is periodic with period `hi - lo`:
`wrap(x + k*(hi - lo), lo, hi) = wrap(x, lo, hi)` for every integer `k`. -/
theorem claim7_wrap_range_periodic (x lo hi : ℚ) (k : ℤ) (h : lo ≠ hi) :
    (min lo hi ≤ wrap x lo hi ∧ wrap x lo hi < max lo hi)
    ∧ wrap (x + k * (hi - lo)) lo hi = wrap x lo hi := by
  rcases lt_or_gt_of_ne h with hlt | hgt
  · have hr : (0 : ℚ) < hi - lo := by linarith
    have hw : ∀ v : ℚ, wrap v lo hi = lo + (hi - lo) * Int.fract ((v - lo) / (hi - lo)) := by
      intro v
      rw [wrap, if_neg (not_lt.mpr (le_of_lt hlt)), wrapAux_eq _ _ _ hlt]
    refine ⟨⟨?_, ?_⟩, ?_⟩
    · rw [min_eq_left (le_of_lt hlt), hw]
      nlinarith [Int.fract_nonneg ((x - lo) / (hi - lo))]
    · rw [max_eq_right (le_of_lt hlt), hw]
      nlinarith [Int.fract_lt_one ((x - lo) / (hi - lo))]
    · rw [hw, hw]
      have hsh : (x + k * (hi - lo) - lo) / (hi - lo) = (x - lo) / (hi - lo) + k := by
        field_simp
        ring
      rw [hsh, Int.fract_add_int]
  · have hr : (0 : ℚ) < lo - hi := by linarith
    have hlt' : hi < lo := hgt
    have hw : ∀ v : ℚ, wrap v lo hi = hi + (lo - hi) * Int.fract ((v - hi) / (lo - hi)) := by
      intro v
      rw [wrap, if_pos hlt', wrapAux_eq _ _ _ hlt']
    refine ⟨⟨?_, ?_⟩, ?_⟩
    · rw [min_eq_right (le_of_lt hlt'), hw]
      nlinarith [Int.fract_nonneg ((x - hi) / (lo - hi))]
    · rw [max_eq_left (le_of_lt hlt'), hw]
      nlinarith [Int.fract_lt_one ((x - hi) / (lo - hi))]
    · rw [hw, hw]
      have hsh : (x + k * (hi - lo) - hi) / (lo - hi) = (x - hi) / (lo - hi) + (-k : ℤ) := by
        push_cast
        field_simp
        ring
      rw [hsh, Int.fract_add_int]

/-- C7 witness at `x = 5`, `lo = 0`, `hi = 3`, `k = 2`. -/
theorem claim7_wrap_range_periodic_witness :
    (min (0 : ℚ) 3 ≤ wrap 5 0 3 ∧ wrap 5 0 3 < max (0 : ℚ) 3)
    ∧ wrap (5 + 2 * (3 - 0)) 0 3 = wrap 5 0 3 :=
  claim7_wrap_range_periodic 5 0 3 2 (by norm_num)

/-! ## C8: rotate -/

theorem rotate_length {α : Type} [Inhabited α] (a : List α) (r : ℤ) :
    (rotate a r).length = a.length := by
  simp only [rotate, List.length_map, List.length_range]

theorem getD_eq_getElem_of_lt {α : Type} (l : List α) (d : α) (i : Nat) (h : i < l.length) :
    l.getD i d = l[i] := by
  rw [List.getD_eq_getElem?_getD, List.getElem?_eq_getElem h]
  rfl

theorem wrapIdx_eq (x L : ℤ) : (x % L + L) % L = x % L := by
  rw [Int.add_emod_self, Int.emod_emod_of_dvd _ dvd_rfl]

theorem rotate_getD {α : Type} [Inhabited α] (a : List α) (r : ℤ) (i : Nat)
    (h : i < a.length) :
    (rotate a r).getD i default
      = a.getD ((((i : ℤ) - r) % (a.length : ℤ) + (a.length : ℤ)) % (a.length : ℤ)).toNat
          default := by
  rw [getD_eq_getElem_of_lt _ _ i (by rwa [rotate_length])]
  simp only [rotate, List.getElem_map, List.getElem_range]

/-- C8.  For a non-empty array, rotating by `n` and then by `-n` restores
the original; rotation is the cyclic shift whose result index `i` reads
`a[((i - n) % L + L) % L]`; and rotation by `L = a.length` is the
identity. -/
theorem claim8_rotate_inverse {α : Type} [Inhabited α] (a : List α) (n : ℤ) (h : a ≠ []) :
    rotate (rotate a n) (-n) = a
    ∧ rotate a (a.length : ℤ) = a
    ∧ ∀ i : Nat, i < a.length →
        (rotate a n).getD i default
          = a.getD ((((i : ℤ) - n) % (a.length : ℤ) + (a.length : ℤ)) % (a.length : ℤ)).toNat
              default := by
  have hL : 0 < (a.length : ℤ) := by exact_mod_cast List.length_pos.mpr h
  have hL0 : (a.length : ℤ) ≠ 0 := ne_of_gt hL
  refine ⟨?_, ?_, fun i hi => rotate_getD a n i hi⟩
  · apply List.ext_getElem
    · rw [rotate_length, rotate_length]
    · intro i h1 h2
      have hi : i < a.length := h2
      rw [← getD_eq_getElem_of_lt _ default i h1, ← getD_eq_getElem_of_lt a default i h2]
      rw [rotate_getD (rotate a n) (-n) i (by rwa [rotate_length] at h1)]
      simp only [rotate_length]
      rw [wrapIdx_eq]
      have hjnn : 0 ≤ ((i : ℤ) - -n) % (a.length : ℤ) := Int.emod_nonneg _ hL0
      have hjlt : ((i : ℤ) - -n) % (a.length : ℤ) < (a.length : ℤ) := Int.emod_lt_of_pos _ hL
      have hjlt' : (((i : ℤ) - -n) % (a.length : ℤ)).toNat < a.length := by omega
      rw [rotate_getD a n _ hjlt']
      rw [wrapIdx_eq]
      have hcast : (((((i : ℤ) - -n) % (a.length : ℤ)).toNat : ℤ)) =
          ((i : ℤ) - -n) % (a.length : ℤ) := Int.toNat_of_nonneg hjnn
      rw [hcast]
      have hred : (((i : ℤ) - -n) % (a.length : ℤ) - n) % (a.length : ℤ) = (i : ℤ) := by
        conv_lhs => rw [Int.sub_emod]
        rw [Int.emod_emod_of_dvd _ dvd_rfl, ← Int.sub_emod]
        have : (i : ℤ) - -n - n = (i : ℤ) := by ring
        rw [this, Int.emod_eq_of_lt (by positivity) (by exact_mod_cast hi)]
      rw [hred]
      simp
  · apply List.ext_getElem
    · rw [rotate_length]
    · intro i h1 h2
      rw [← getD_eq_getElem_of_lt _ default i h1, ← getD_eq_getElem_of_lt a default i h2]
      rw [rotate_getD a _ i h2, wrapIdx_eq]
      have hred : ((i : ℤ) - (a.length : ℤ)) % (a.length : ℤ) = (i : ℤ) := by
        rw [Int.sub_emod, Int.emod_self, sub_zero, Int.emod_emod_of_dvd _ dvd_rfl,
          Int.emod_eq_of_lt (by positivity) (by exact_mod_cast h2)]
      rw [hred]
      simp

/-- C8 witness at `a = [1, 2, 3]`, `n = 5`. -/
theorem claim8_rotate_inverse_witness :
    rotate (rotate ([1, 2, 3] : List ℤ) 5) (-5) = [1, 2, 3]
    ∧ rotate ([1, 2, 3] : List ℤ) (([1, 2, 3] : List ℤ).length : ℤ) = [1, 2, 3] :=
  ⟨(claim8_rotate_inverse ([1, 2, 3] : List ℤ) 5 (by decide)).1,
   (claim8_rotate_inverse ([1, 2, 3] : List ℤ) 5 (by decide)).2.1⟩

/-! ## C6: split -/

theorem rotate_cons_neg_one {α : Type} [Inhabited α] (x : α) (t : List α) :
    rotate (x :: t) (-1) = t ++ [x] := by
  apply List.ext_getElem
  · simp [rotate_length]
  · intro i h1 h2
    have hi : i < t.length + 1 := by simpa using h2
    rw [← getD_eq_getElem_of_lt _ default i h1, ← getD_eq_getElem_of_lt _ default i h2]
    rw [rotate_getD _ _ i (by simpa using hi), wrapIdx_eq]
    have hstep : (i : ℤ) - (-1) = (i : ℤ) + 1 := by ring
    by_cases hc : i < t.length
    · have hmod : ((i : ℤ) + 1) % (((x :: t).length : ℤ)) = (i : ℤ) + 1 := by
        apply Int.emod_eq_of_lt (by positivity)
        simp only [List.length_cons]
        push_cast
        omega
      rw [hstep, hmod]
      have htn : ((i : ℤ) + 1).toNat = i + 1 := by omega
      rw [htn]
      rw [List.getD_cons_succ]
      rw [getD_eq_getElem_of_lt _ default i hc, getD_eq_getElem_of_lt _ default i h2]
      rw [List.getElem_append_left hc]
    · have hieq : i = t.length := by omega
      subst hieq
      have hmod : ((t.length : ℤ) + 1) % (((x :: t).length : ℤ)) = 0 := by
        simp only [List.length_cons]
        push_cast
        exact Int.emod_self
      rw [hstep, hmod]
      simp only [Int.toNat_zero, List.getD_cons_zero]
      rw [getD_eq_getElem_of_lt _ default _ h2]
      rw [List.getElem_append_right (by omega)]
      simp

theorem split_sound {α : Type} :
    ∀ (fuel : Nat) (a : List α) (s : List ℤ),
      (∃ x ∈ s, 0 < x) →
      a.length * s.length + s.findIdx (fun x => decide (0 < x)) < fuel →
      ∃ r, split fuel a s = some r ∧ r.flatten = a ∧ (a ≠ [] → ∀ c ∈ r, c ≠ []) := by
  intro fuel
  induction fuel with
  | zero => intro a s _ hlt; omega
  | succ n ih =>
    intro a s hex hlt
    obtain ⟨x₀, hx₀mem, hx₀⟩ := hex
    cases s with
    | nil => simp at hx₀mem
    | cons h t =>
      have hrot : rotate (h :: t) (-1) = t ++ [h] := rotate_cons_neg_one h t
      have e1 : (t ++ [h]).length = t.length + 1 := by simp
      have e2 : (h :: t).length = t.length + 1 := by simp
      by_cases hh : 0 < h
      · simp only [split, if_pos hh]
        by_cases hres : (a.drop h.toNat).length < 1
        · have hres0 : (a.drop h.toNat).length = 0 := by omega
          have hdlen : (a.drop h.toNat).length = a.length - h.toNat := List.length_drop _ _
          have hle : a.length ≤ h.toNat := by omega
          refine ⟨[a.take h.toNat], by rw [if_pos hres], ?_, ?_⟩
          · simp [List.take_of_length_le hle]
          · intro hane c hc
            simp only [List.mem_singleton] at hc
            subst hc
            have hht : 1 ≤ h.toNat := by omega
            have halen : 0 < a.length := List.length_pos.mpr hane
            intro hemp
            have hlt0 := congrArg List.length hemp
            rw [List.length_take] at hlt0
            simp only [List.length_nil] at hlt0
            omega
        · have hrespos : 0 < (a.drop h.toNat).length := by omega
          have hane : a ≠ [] := by
            intro he
            rw [he] at hrespos
            simp at hrespos
          have hresne : a.drop h.toNat ≠ [] := by
            intro he
            rw [he] at hrespos
            simp at hrespos
          have halen : 0 < a.length := List.length_pos.mpr hane
          have hht : 1 ≤ h.toNat := by omega
          have hdlen : (a.drop h.toNat).length = a.length - h.toNat := List.length_drop _ _
          have hreslt : (a.drop h.toNat).length + 1 ≤ a.length := by omega
          have hex' : ∃ x ∈ t ++ [h], 0 < x := ⟨h, by simp, hh⟩
          have hfi : (t ++ [h]).findIdx (fun x => decide (0 < x)) < (t ++ [h]).length :=
            List.findIdx_lt_length_of_exists ⟨h, by simp, by simpa using hh⟩
          have hmeas : (a.drop h.toNat).length * (t ++ [h]).length
              + (t ++ [h]).findIdx (fun x => decide (0 < x)) < n := by
            have e3 : (a.drop h.toNat).length * (t ++ [h]).length
                = (a.drop h.toNat).length * (t.length + 1) := by rw [e1]
            have e4 : a.length * (h :: t).length = a.length * (t.length + 1) := by rw [e2]
            have hmul : ((a.drop h.toNat).length + 1) * (t.length + 1)
                ≤ a.length * (t.length + 1) :=
              Nat.mul_le_mul_right _ hreslt
            have hexp : ((a.drop h.toNat).length + 1) * (t.length + 1)
                = (a.drop h.toNat).length * (t.length + 1) + (t.length + 1) := by ring
            omega
          obtain ⟨r, hr, hflat, hne⟩ := ih (a.drop h.toNat) (t ++ [h]) hex' hmeas
          refine ⟨a.take h.toNat :: r, ?_, ?_, ?_⟩
          · rw [if_neg hres, hrot, hr]
            rfl
          · simp [List.flatten_cons, hflat, List.take_append_drop]
          · intro _ c hc
            rcases List.mem_cons.mp hc with hc1 | hc2
            · subst hc1
              intro hemp
              have hlt0 := congrArg List.length hemp
              rw [List.length_take] at hlt0
              simp only [List.length_nil] at hlt0
              omega
            · exact hne hresne c hc2
      · simp only [split, if_neg hh]
        have hx₀t : x₀ ∈ t := by
          rcases List.mem_cons.mp hx₀mem with rfl | ht'
          · exact absurd hx₀ hh
          · exact ht'
        have hex' : ∃ x ∈ t ++ [h], 0 < x := ⟨x₀, by simp [hx₀t], hx₀⟩
        have hfit : t.findIdx (fun x => decide (0 < x)) < t.length :=
          List.findIdx_lt_length_of_exists ⟨x₀, hx₀t, by simpa using hx₀⟩
        have hfi_cons : (h :: t).findIdx (fun x => decide (0 < x))
            = t.findIdx (fun x => decide (0 < x)) + 1 := by
          rw [List.findIdx_cons]
          simp [hh]
        have hfi_app : (t ++ [h]).findIdx (fun x => decide (0 < x))
            = t.findIdx (fun x => decide (0 < x)) := by
          rw [List.findIdx_append, if_pos hfit]
        have hmeas : a.length * (t ++ [h]).length
            + (t ++ [h]).findIdx (fun x => decide (0 < x)) < n := by
          have e3 : a.length * (t ++ [h]).length = a.length * (t.length + 1) := by rw [e1]
          have e4 : a.length * (h :: t).length = a.length * (t.length + 1) := by rw [e2]
          omega
        obtain ⟨r, hr, hflat, hne⟩ := ih a (t ++ [h]) hex' hmeas
        rw [hrot]
        exact ⟨r, hr, hflat, hne⟩

/-- C6.  For every input array and every sizes list containing a strictly
positive (integer) entry, the recursion of `split` terminates — the fuel
bound `|a|·|s| + |s| + 1` suffices — skipping non-positive heads without
emitting an empty chunk (every returned chunk of a non-empty input is
non-empty) and returning chunks that concatenate back to the input; in
particular `split([1,2,3,4,5,6,7], [2,3]) = [[1,2],[3,4,5],[6,7]]`. -/
theorem claim6_split_terminates_covers :
    (∀ (α : Type) (a : List α) (s : List ℤ), (∃ x ∈ s, 0 < x) →
      ∃ r, split (a.length * s.length + s.length + 1) a s = some r
        ∧ r.flatten = a ∧ (a ≠ [] → ∀ c ∈ r, c ≠ []))
    ∧ split 17 ([1, 2, 3, 4, 5, 6, 7] : List ℤ) [2, 3] = some [[1, 2], [3, 4, 5], [6, 7]] := by
  constructor
  · intro α a s hex
    apply split_sound
    · exact hex
    · have := @List.findIdx_le_length ℤ (fun x => decide (0 < x)) s
      have hfi : s.findIdx (fun x => decide (0 < x)) ≤ s.length := this
      omega
  · decide

/-- C6 witness at `a = [1,2,3,4,5,6,7]`, `s = [2,3]` (fuel
`7·2 + 2 + 1 = 17`). -/
theorem claim6_split_terminates_covers_witness :
    ∃ r, split 17 ([1, 2, 3, 4, 5, 6, 7] : List ℤ) [2, 3] = some r
      ∧ r.flatten = [1, 2, 3, 4, 5, 6, 7]
      ∧ (([1, 2, 3, 4, 5, 6, 7] : List ℤ) ≠ [] → ∀ c ∈ r, c ≠ []) :=
  claim6_split_terminates_covers.1 ℤ [1, 2, 3, 4, 5, 6, 7] [2, 3] ⟨2, by decide, by decide⟩

/-! ## C9: normalize -/

/-- A purely numeric (possibly nested) array element, the input domain of
the claim about `normalize`. -/
inductive NumTree : Node → Prop where
  | num (q : ℚ) : NumTree (.num q)
  | arr (l : List Node) (h : ∀ x ∈ l, NumTree x) : NumTree (.arr l)

/-- The rational leaves of a list of numeric trees, in order. -/
def qLeavesList : List Node → List ℚ
  | [] => []
  | .num q :: xs => q :: qLeavesList xs
  | .arr l :: xs => qLeavesList l ++ qLeavesList xs
  | _ :: xs => qLeavesList xs

/-- The spec's "maps every element ..., recursing into nested arrays":
apply `g` to every numeric leaf, preserving the nesting shape (non-numeric,
non-array elements are kept). -/
def specMapLeaves (g : ℚ → Node) : List Node → List Node
  | [] => []
  | .num q :: xs => g q :: specMapLeaves g xs
  | .arr l :: xs => .arr (specMapLeaves g l) :: specMapLeaves g xs
  | x :: xs => x :: specMapLeaves g xs

theorem flatList_eq : ∀ (l : List Node), (∀ x ∈ l, NumTree x) →
    flatList l = (qLeavesList l).map Node.num
  | [], _ => by simp [flatList, qLeavesList]
  | .num q :: xs, h => by
      simp only [flatList, qLeavesList, List.map_cons]
      rw [flatList_eq xs (fun x hx => h x (List.mem_cons_of_mem _ hx))]
  | .arr l :: xs, h => by
      have h1 : ∀ x ∈ l, NumTree x := by
        have h2 := h (.arr l) (List.mem_cons_self _ _)
        cases h2 with
        | arr _ h3 => exact h3
      simp only [flatList, qLeavesList, List.map_append]
      rw [flatList_eq l h1, flatList_eq xs (fun x hx => h x (List.mem_cons_of_mem _ hx))]
  | .str s :: xs, h => absurd (h (.str s) (List.mem_cons_self _ _)) (by intro hc; cases hc)
  | .nan :: xs, h => absurd (h .nan (List.mem_cons_self _ _)) (by intro hc; cases hc)
  | .inf :: xs, h => absurd (h .inf (List.mem_cons_self _ _)) (by intro hc; cases hc)
  | .ninf :: xs, h => absurd (h .ninf (List.mem_cons_self _ _)) (by intro hc; cases hc)
  | .undefined :: xs, h => absurd (h .undefined (List.mem_cons_self _ _)) (by intro hc; cases hc)

theorem foldl_jsMax_num (qs : List ℚ) : ∀ (acc : ℚ),
    (qs.map Node.num).foldl jsMax (.num acc) = .num (qs.foldl max acc) := by
  induction qs with
  | nil => intro acc; rfl
  | cons q rest ih =>
    intro acc
    simp only [List.map_cons, List.foldl_cons]
    rw [show jsMax (.num acc) (.num q) = .num (max acc q) from rfl]
    exact ih _

theorem foldl_jsMin_num (qs : List ℚ) : ∀ (acc : ℚ),
    (qs.map Node.num).foldl jsMin (.num acc) = .num (qs.foldl min acc) := by
  induction qs with
  | nil => intro acc; rfl
  | cons q rest ih =>
    intro acc
    simp only [List.map_cons, List.foldl_cons]
    rw [show jsMin (.num acc) (.num q) = .num (min acc q) from rfl]
    exact ih _

theorem foldl_max_eq (rest : List ℚ) : ∀ (acc M : ℚ),
    (∀ x ∈ rest, x ≤ M) → acc ≤ M → (M ∈ rest ∨ M = acc) →
    rest.foldl max acc = M := by
  induction rest with
  | nil =>
    intro acc M _ _ hm
    rcases hm with hm | hm
    · simp at hm
    · simp [hm]
  | cons y ys ih =>
    intro acc M hub hacc hm
    simp only [List.foldl_cons]
    apply ih (max acc y) M
    · exact fun x hx => hub x (List.mem_cons_of_mem _ hx)
    · exact max_le hacc (hub y (List.mem_cons_self _ _))
    · rcases hm with hm | hm
      · rcases List.mem_cons.mp hm with hy | hys
        · subst hy
          right
          exact (max_eq_right hacc).symm
        · left; exact hys
      · subst hm
        right
        exact (max_eq_left (hub y (List.mem_cons_self _ _))).symm

theorem foldl_min_eq (rest : List ℚ) : ∀ (acc m : ℚ),
    (∀ x ∈ rest, m ≤ x) → m ≤ acc → (m ∈ rest ∨ m = acc) →
    rest.foldl min acc = m := by
  induction rest with
  | nil =>
    intro acc m _ _ hm
    rcases hm with hm | hm
    · simp at hm
    · simp [hm]
  | cons y ys ih =>
    intro acc m hlb hacc hm
    simp only [List.foldl_cons]
    apply ih (min acc y) m
    · exact fun x hx => hlb x (List.mem_cons_of_mem _ hx)
    · exact le_min hacc (hlb y (List.mem_cons_self _ _))
    · rcases hm with hm | hm
      · rcases List.mem_cons.mp hm with hy | hys
        · subst hy
          right
          exact (min_eq_right hacc).symm
        · left; exact hys
      · subst hm
        right
        exact (min_eq_left (hlb y (List.mem_cons_self _ _))).symm

theorem maximum_eq (l : List Node) (hl : ∀ x ∈ l, NumTree x) (M : ℚ)
    (hmem : M ∈ qLeavesList l) (hub : ∀ x ∈ qLeavesList l, x ≤ M) :
    maximum (.arr l) = .num M := by
  show (flatList l).foldl jsMax .ninf = .num M
  rw [flatList_eq l hl]
  cases hq : qLeavesList l with
  | nil => rw [hq] at hmem; simp at hmem
  | cons q rest =>
    rw [hq] at hmem hub
    simp only [List.map_cons, List.foldl_cons]
    rw [show jsMax .ninf (.num q) = .num q from rfl, foldl_jsMax_num]
    congr 1
    apply foldl_max_eq rest q M
    · exact fun x hx => hub x (List.mem_cons_of_mem _ hx)
    · exact hub q (List.mem_cons_self _ _)
    · rcases List.mem_cons.mp hmem with hm | hm
      · right; exact hm
      · left; exact hm

theorem minimum_eq (l : List Node) (hl : ∀ x ∈ l, NumTree x) (m : ℚ)
    (hmem : m ∈ qLeavesList l) (hlb : ∀ x ∈ qLeavesList l, m ≤ x) :
    minimum (.arr l) = .num m := by
  show (flatList l).foldl jsMin .inf = .num m
  rw [flatList_eq l hl]
  cases hq : qLeavesList l with
  | nil => rw [hq] at hmem; simp at hmem
  | cons q rest =>
    rw [hq] at hmem hlb
    simp only [List.map_cons, List.foldl_cons]
    rw [show jsMin .inf (.num q) = .num q from rfl, foldl_jsMin_num]
    congr 1
    apply foldl_min_eq rest q m
    · exact fun x hx => hlb x (List.mem_cons_of_mem _ hx)
    · exact hlb q (List.mem_cons_self _ _)
    · rcases List.mem_cons.mp hmem with hm | hm
      · right; exact hm
      · left; exact hm

theorem specMapLeaves_id : ∀ (l : List Node), (∀ x ∈ l, NumTree x) →
    specMapLeaves (fun q => .num q) l = l
  | [], _ => by simp [specMapLeaves]
  | .num q :: xs, h => by
      simp only [specMapLeaves]
      rw [specMapLeaves_id xs (fun x hx => h x (List.mem_cons_of_mem _ hx))]
  | .arr l :: xs, h => by
      have h1 : ∀ x ∈ l, NumTree x := by
        have h2 := h (.arr l) (List.mem_cons_self _ _)
        cases h2 with
        | arr _ h3 => exact h3
      simp only [specMapLeaves]
      rw [specMapLeaves_id l h1, specMapLeaves_id xs (fun x hx => h x (List.mem_cons_of_mem _ hx))]
  | .str s :: xs, h => absurd (h (.str s) (List.mem_cons_self _ _)) (by intro hc; cases hc)
  | .nan :: xs, h => absurd (h .nan (List.mem_cons_self _ _)) (by intro hc; cases hc)
  | .inf :: xs, h => absurd (h .inf (List.mem_cons_self _ _)) (by intro hc; cases hc)
  | .ninf :: xs, h => absurd (h .ninf (List.mem_cons_self _ _)) (by intro hc; cases hc)
  | .undefined :: xs, h => absurd (h .undefined (List.mem_cons_self _ _)) (by intro hc; cases hc)

theorem specMapLeaves_congr : ∀ (l : List Node) (g₁ g₂ : ℚ → Node),
    (∀ q ∈ qLeavesList l, g₁ q = g₂ q) → specMapLeaves g₁ l = specMapLeaves g₂ l
  | [], _, _, _ => by simp [specMapLeaves]
  | .num q :: xs, g₁, g₂, h => by
      simp only [specMapLeaves, qLeavesList, List.mem_cons] at h ⊢
      rw [h q (Or.inl rfl), specMapLeaves_congr xs g₁ g₂ (fun q hq => h q (Or.inr hq))]
  | .arr l :: xs, g₁, g₂, h => by
      simp only [specMapLeaves, qLeavesList, List.mem_append] at h ⊢
      rw [specMapLeaves_congr l g₁ g₂ (fun q hq => h q (Or.inl hq)),
        specMapLeaves_congr xs g₁ g₂ (fun q hq => h q (Or.inr hq))]
  | .str s :: xs, g₁, g₂, h => by
      simp only [specMapLeaves, qLeavesList] at h ⊢
      rw [specMapLeaves_congr xs g₁ g₂ h]
  | .nan :: xs, g₁, g₂, h => by
      simp only [specMapLeaves, qLeavesList] at h ⊢
      rw [specMapLeaves_congr xs g₁ g₂ h]
  | .inf :: xs, g₁, g₂, h => by
      simp only [specMapLeaves, qLeavesList] at h ⊢
      rw [specMapLeaves_congr xs g₁ g₂ h]
  | .ninf :: xs, g₁, g₂, h => by
      simp only [specMapLeaves, qLeavesList] at h ⊢
      rw [specMapLeaves_congr xs g₁ g₂ h]
  | .undefined :: xs, g₁, g₂, h => by
      simp only [specMapLeaves, qLeavesList] at h ⊢
      rw [specMapLeaves_congr xs g₁ g₂ h]

theorem arrayCalcList_specMap : ∀ (l : List Node), (∀ x ∈ l, NumTree x) →
    ∀ (f : ℚ → ℚ) (b : Node) (op : Node → Node → Node) (g : ℚ → Node),
      isArr b = false → (∀ q, op (.num q) b = g q) →
      arrayCalcList (specMapLeaves (fun q => .num (f q)) l) b op
        = specMapLeaves (fun q => g (f q)) l
  | [], _, _, _, _, _, _, _ => by simp [specMapLeaves, arrayCalcList]
  | .num q :: xs, h, f, b, op, g, hb, hop => by
      simp only [specMapLeaves, arrayCalcList]
      have hhead : arrayCalc (.num (f q)) b op = op (.num (f q)) b := by
        cases b <;> simp_all [arrayCalc, isArr]
      rw [hhead, hop,
        arrayCalcList_specMap xs (fun x hx => h x (List.mem_cons_of_mem _ hx)) f b op g hb hop]
  | .arr l :: xs, h, f, b, op, g, hb, hop => by
      have h1 : ∀ x ∈ l, NumTree x := by
        have h2 := h (.arr l) (List.mem_cons_self _ _)
        cases h2 with
        | arr _ h3 => exact h3
      simp only [specMapLeaves, arrayCalcList]
      have hhead : arrayCalc (.arr (specMapLeaves (fun q => .num (f q)) l)) b op
          = .arr (arrayCalcList (specMapLeaves (fun q => .num (f q)) l) b op) := by
        cases b <;> simp_all [arrayCalc, isArr]
      rw [hhead, arrayCalcList_specMap l h1 f b op g hb hop,
        arrayCalcList_specMap xs (fun x hx => h x (List.mem_cons_of_mem _ hx)) f b op g hb hop]
  | .str s :: xs, h, _, _, _, _, _, _ =>
      absurd (h (.str s) (List.mem_cons_self _ _)) (by intro hc; cases hc)
  | .nan :: xs, h, _, _, _, _, _, _ =>
      absurd (h .nan (List.mem_cons_self _ _)) (by intro hc; cases hc)
  | .inf :: xs, h, _, _, _, _, _, _ =>
      absurd (h .inf (List.mem_cons_self _ _)) (by intro hc; cases hc)
  | .ninf :: xs, h, _, _, _, _, _, _ =>
      absurd (h .ninf (List.mem_cons_self _ _)) (by intro hc; cases hc)
  | .undefined :: xs, h, _, _, _, _, _, _ =>
      absurd (h .undefined (List.mem_cons_self _ _)) (by intro hc; cases hc)

theorem jsDiv_num_ne (x d : ℚ) (hd : d ≠ 0) : jsDiv (.num x) (.num d) = .num (x / d) := by
  simp [jsDiv, toNum, hd]

theorem jsDiv_num_zero (x : ℚ) :
    jsDiv (.num x) (.num 0) = if x = 0 then .nan else if 0 < x then .inf else .ninf := by
  simp [jsDiv, toNum]

/-- C9.  On a numeric (possibly nested) array with least leaf `m` and
greatest leaf `M`: when `m < M`, `normalize` maps every leaf `x` to
`(x - m) / (M - m)`, recursing into nested arrays; when `m = M` the
substituted divisor is the literal `0` and every leaf of the result is
`NaN` (each numerator is `x - m = 0`, and `0/0` is `NaN`). -/
theorem claim9_normalize (l : List Node) (m M : ℚ)
    (hl : ∀ x ∈ l, NumTree x)
    (hmem : m ∈ qLeavesList l) (hMem : M ∈ qLeavesList l)
    (hlb : ∀ q ∈ qLeavesList l, m ≤ q) (hub : ∀ q ∈ qLeavesList l, q ≤ M) :
    (m < M → normalize (.arr l)
        = .arr (specMapLeaves (fun q => .num ((q - m) / (M - m))) l))
    ∧ (m = M → normalize (.arr l) = .arr (specMapLeaves (fun _ => .nan) l)) := by
  have hmax : maximum (.arr l) = .num M := maximum_eq l hl M hMem hub
  have hmin : minimum (.arr l) = .num m := minimum_eq l hl m hmem hlb
  have hsub : subtract (.arr l) (.num m) = .arr (specMapLeaves (fun q => .num (q - m)) l) := by
    show arrayCalc (.arr l) (.num m) jsSub = _
    have harr : arrayCalc (.arr l) (.num m) jsSub = .arr (arrayCalcList l (.num m) jsSub) := by
      simp [arrayCalc]
    rw [harr]
    congr 1
    conv_lhs => rw [← specMapLeaves_id l hl]
    exact arrayCalcList_specMap l hl (fun q => q) (.num m) jsSub
      (fun q => .num (q - m)) rfl (fun q => jsSub_num q m)
  constructor
  · intro hlt
    have hne : M - m ≠ 0 := by intro hc; apply absurd hlt; simp; nlinarith
    show divide (subtract (.arr l) (minimum (.arr l)))
        (match jsSub (maximum (.arr l)) (minimum (.arr l)) with
          | .num q => if q = 0 then Node.num 0 else Node.num q
          | .nan => Node.num 0
          | r => r) = _
    rw [hmax, hmin, jsSub_num, hsub]
    simp only [if_neg hne]
    show arrayCalc (.arr (specMapLeaves (fun q => .num (q - m)) l)) (.num (M - m)) jsDiv = _
    have harr : arrayCalc (.arr (specMapLeaves (fun q => .num (q - m)) l)) (.num (M - m)) jsDiv
        = .arr (arrayCalcList (specMapLeaves (fun q => .num (q - m)) l) (.num (M - m)) jsDiv) := by
      simp [arrayCalc]
    rw [harr]
    congr 1
    exact arrayCalcList_specMap l hl (fun q => q - m) (.num (M - m)) jsDiv
      (fun q => .num (q / (M - m))) rfl (fun q => jsDiv_num_ne q (M - m) hne)
  · intro heq
    have hzero : M - m = 0 := by rw [heq]; ring
    show divide (subtract (.arr l) (minimum (.arr l)))
        (match jsSub (maximum (.arr l)) (minimum (.arr l)) with
          | .num q => if q = 0 then Node.num 0 else Node.num q
          | .nan => Node.num 0
          | r => r) = _
    rw [hmax, hmin, jsSub_num, hsub]
    simp only [hzero, if_pos rfl]
    show arrayCalc (.arr (specMapLeaves (fun q => .num (q - m)) l)) (.num 0) jsDiv = _
    have harr : arrayCalc (.arr (specMapLeaves (fun q => .num (q - m)) l)) (.num 0) jsDiv
        = .arr (arrayCalcList (specMapLeaves (fun q => .num (q - m)) l) (.num 0) jsDiv) := by
      simp [arrayCalc]
    rw [harr]
    congr 1
    rw [arrayCalcList_specMap l hl (fun q => q - m) (.num 0) jsDiv
      (fun q => if q = 0 then .nan else if 0 < q then .inf else .ninf) rfl
      (fun q => jsDiv_num_zero q)]
    apply specMapLeaves_congr
    intro q hq
    have h1 : m ≤ q := hlb q hq
    have h2 : q ≤ M := hub q hq
    have h3 : q - m = 0 := by rw [heq] at h1; linarith
    simp [h3]

/-- C9 witness: `normalize([0,1,2,3,4]) = [0, 0.25, 0.5, 0.75, 1]`. -/
theorem claim9_normalize_witness :
    normalize (.arr [.num 0, .num 1, .num 2, .num 3, .num 4])
      = .arr [.num 0, .num (1/4), .num (1/2), .num (3/4), .num 1] := by
  have h := (claim9_normalize [.num 0, .num 1, .num 2, .num 3, .num 4] 0 4
    (by
      intro x hx
      simp only [List.mem_cons, List.not_mem_nil, or_false] at hx
      rcases hx with rfl | rfl | rfl | rfl | rfl <;> exact NumTree.num _)
    (by simp [qLeavesList])
    (by simp [qLeavesList])
    (by
      intro q hq
      simp only [qLeavesList, List.mem_cons, List.not_mem_nil, or_false] at hq
      rcases hq with rfl | rfl | rfl | rfl | rfl <;> norm_num)
    (by
      intro q hq
      simp only [qLeavesList, List.mem_cons, List.not_mem_nil, or_false] at hq
      rcases hq with rfl | rfl | rfl | rfl | rfl <;> norm_num)).1 (by norm_num)
  rw [h]
  simp only [specMapLeaves]
  norm_num

end TS


